import Mathlib

/-!
Verification of a bounded TTL-LRU cache (Go, `container/list` + map + mutex).

Model: `time.Time` and `time.Duration` become `Int` (absolute timestamps /
signed durations); `time.Now()` becomes an explicit `now : Int` argument to
`Get` and `Set`.  The recency list `ll` is a Lean `List CacheItem`, front
first (most-recently-touched first, as in `container/list` with `PushFront` /
`MoveToFront` / `Back`).  The map `items : map[string]*list.Element` stores
pointers into the list; since list keys are unique in every reachable state,
a map entry is modelled by its key, and a pointer dereference by searching
the list for the first element carrying that key.  The mutex is dropped: the
model is sequential, each operation is one atomic step.
-/

/-- `CacheItem` from the source: key, value and absolute expiry time. -/
structure CacheItem where
  key : String
  value : String
  exp : Int
deriving DecidableEq

/-- `LRUCache` from the source: capacity, the lookup map's key set, and the
recency list (front = most recently touched). -/
structure LRUCache where
  capacity : Int
  items : List String
  ll : List CacheItem
deriving DecidableEq

/-- `NewLRUCache` from the source: stores the capacity unchecked, empty map,
empty list. -/
def NewLRUCache (capacity : Int) : LRUCache :=
  { capacity := capacity, items := [], ll := [] }

namespace LRUCache

/-- `c.ll.MoveToFront(ele)` where `ele` is the element whose item carries
`key`: that element moves to the front, the rest keep their order.  If no
element carries `key` (unreachable when map and list agree), the list is
unchanged. -/
def moveToFront (ll : List CacheItem) (key : String) : List CacheItem :=
  match ll.find? (fun it => it.key == key) with
  | none => ll
  | some it => it :: ll.eraseP (fun it2 => it2.key == key)

/-- In-place update through the element pointer in `Set`'s present branch:
`item.Value = value; item.Exp = exp`.  The first element carrying `key` gets
the new value and expiry; its key is untouched. -/
def updateItem : List CacheItem → String → String → Int → List CacheItem
  | [], _, _, _ => []
  | it :: rest, key, v, e =>
    if it.key == key then { key := it.key, value := v, exp := e } :: rest
    else it :: updateItem rest key v e

/-- `removeElement` from the source: `c.ll.Remove(ele)` and
`delete(c.items, item.Key)`, with `ele` identified by the key it carries. -/
def removeElement (c : LRUCache) (key : String) : LRUCache :=
  { c with ll := c.ll.eraseP (fun it => it.key == key),
           items := c.items.erase key }

/-- `removeOldest` from the source: remove the back element, if any. -/
def removeOldest (c : LRUCache) : LRUCache :=
  match c.ll.getLast? with
  | none => c
  | some it => removeElement c it.key

/-- `Get` from the source.  `time.Now().After(item.Exp)` is `item.exp < now`.
On a hit the element is first moved to the front; if expired it is then
removed from list and map and not-found is returned.  The inner `none`
branch (key in map, no list element) is unreachable in consistent states. -/
def Get (now : Int) (key : String) (c : LRUCache) : (String × Bool) × LRUCache :=
  if key ∈ c.items then
    let ll1 := moveToFront c.ll key
    match ll1.find? (fun it => it.key == key) with
    | none => (("", false), { c with ll := ll1 })
    | some item =>
      if item.exp < now then
        (("", false), removeElement { c with ll := ll1 } key)
      else
        ((item.value, true), { c with ll := ll1 })
  else
    (("", false), c)

/-- `Set` from the source.  Present key: move to front and overwrite value
and expiry in place.  Absent key: push a fresh item at the front, record the
key in the map, and if `c.ll.Len() > c.capacity` evict the back element. -/
def Set (now : Int) (key value : String) (ttl : Int) (c : LRUCache) : LRUCache :=
  if key ∈ c.items then
    { c with ll := updateItem (moveToFront c.ll key) key value (now + ttl) }
  else
    let c1 : LRUCache :=
      { c with items := key :: c.items,
               ll := { key := key, value := value, exp := now + ttl } :: c.ll }
    if c.capacity < (c1.ll.length : Int) then removeOldest c1 else c1

/-- One external operation: a timed `Get` or a timed `Set`. -/
inductive Op where
  | get (now : Int) (key : String)
  | set (now : Int) (key value : String) (ttl : Int)
deriving DecidableEq

/-- The state reached after one operation. -/
def step (c : LRUCache) : Op → LRUCache
  | .get now key => (Get now key c).2
  | .set now key value ttl => Set now key value ttl c

/-- The state reached after a sequence of operations. -/
def run (c : LRUCache) (ops : List Op) : LRUCache :=
  ops.foldl step c

/-- The keys held by a recency list, in recency order. -/
def llKeys (ll : List CacheItem) : List String :=
  ll.map (fun it => it.key)

/-- The keys held by the store's recency list. -/
def keys (c : LRUCache) : List String :=
  llKeys c.ll

/-- Structural consistency: the map's key set is a permutation of the list's
keys, and the list's keys are pairwise distinct. -/
def Inv (c : LRUCache) : Prop :=
  c.items.Perm (keys c) ∧ (keys c).Nodup

instance (c : LRUCache) : Decidable (Inv c) := by
  unfold Inv
  infer_instance

/-! ### Basic lemmas about the list-level helpers -/

theorem llKeys_length (ll : List CacheItem) : (llKeys ll).length = ll.length := by
  simp [llKeys]

theorem mem_llKeys (ll : List CacheItem) (k : String) :
    k ∈ llKeys ll ↔ ∃ it ∈ ll, it.key = k := by
  simp [llKeys]

theorem find?_key_eq {ll : List CacheItem} {k : String} {it : CacheItem}
    (h : ll.find? (fun i => i.key == k) = some it) : it.key = k := by
  have := List.find?_some h
  simpa [beq_iff_eq] using this

theorem find?_key_mem {ll : List CacheItem} {k : String} {it : CacheItem}
    (h : ll.find? (fun i => i.key == k) = some it) : it ∈ ll :=
  List.mem_of_find?_eq_some h

theorem find?_eq_none_of_not_mem {ll : List CacheItem} {k : String}
    (h : k ∉ llKeys ll) : ll.find? (fun i => i.key == k) = none := by
  refine List.find?_eq_none.mpr ?_
  intro it hit
  simp only [beq_iff_eq]
  intro hkey
  exact h ((mem_llKeys ll k).mpr ⟨it, hit, hkey⟩)

theorem find?_isSome_of_mem {ll : List CacheItem} {k : String}
    (h : k ∈ llKeys ll) : ∃ it, ll.find? (fun i => i.key == k) = some it := by
  obtain ⟨it, hit, hkey⟩ := (mem_llKeys ll k).mp h
  have : (ll.find? (fun i => i.key == k)).isSome = true :=
    List.find?_isSome.mpr ⟨it, hit, by simp [beq_iff_eq, hkey]⟩
  exact Option.isSome_iff_exists.mp this

theorem llKeys_eraseP (ll : List CacheItem) (k : String) :
    llKeys (ll.eraseP (fun it => it.key == k)) = (llKeys ll).erase k := by
  induction ll with
  | nil => simp [llKeys]
  | cons it rest ih =>
    by_cases hk : it.key = k
    · subst hk
      rw [List.eraseP_cons_of_pos (by simp)]
      simp [llKeys, List.erase_cons_head]
    · rw [List.eraseP_cons_of_neg (p := fun i : CacheItem => i.key == k) (a := it)
        (by simp [hk])]
      simp only [llKeys, List.map_cons]
      rw [List.erase_cons_tail (by simp [hk])]
      simp only [llKeys] at ih
      rw [ih]

theorem eraseP_of_key_not_mem {ll : List CacheItem} {k : String}
    (h : k ∉ llKeys ll) : ll.eraseP (fun it => it.key == k) = ll := by
  refine List.eraseP_of_forall_not ?_
  intro it hit
  simp only [beq_iff_eq]
  intro hkey
  exact h ((mem_llKeys ll k).mpr ⟨it, hit, hkey⟩)

theorem length_eraseP_key_of_mem {ll : List CacheItem} {k : String}
    (h : k ∈ llKeys ll) :
    (ll.eraseP (fun it => it.key == k)).length = ll.length - 1 := by
  obtain ⟨it, hit, hkey⟩ := (mem_llKeys ll k).mp h
  exact List.length_eraseP_of_mem hit (by simp [beq_iff_eq, hkey])

theorem llKeys_updateItem (ll : List CacheItem) (k v : String) (e : Int) :
    llKeys (updateItem ll k v e) = llKeys ll := by
  induction ll with
  | nil => rfl
  | cons it rest ih =>
    by_cases hk : it.key = k
    · simp [updateItem, llKeys, hk]
    · simp [updateItem, llKeys, hk]
      simpa [llKeys] using ih

theorem length_updateItem (ll : List CacheItem) (k v : String) (e : Int) :
    (updateItem ll k v e).length = ll.length := by
  have h := congrArg List.length (llKeys_updateItem ll k v e)
  simpa [llKeys_length] using h

theorem moveToFront_of_none {ll : List CacheItem} {k : String}
    (h : ll.find? (fun it => it.key == k) = none) : moveToFront ll k = ll := by
  simp [moveToFront, h]

theorem moveToFront_of_some {ll : List CacheItem} {k : String} {it : CacheItem}
    (h : ll.find? (fun it => it.key == k) = some it) :
    moveToFront ll k = it :: ll.eraseP (fun it2 => it2.key == k) := by
  simp [moveToFront, h]

theorem llKeys_moveToFront (ll : List CacheItem) (k : String) :
    (llKeys (moveToFront ll k)).Perm (llKeys ll) := by
  cases hf : ll.find? (fun it => it.key == k) with
  | none => rw [moveToFront_of_none hf]
  | some it =>
    rw [moveToFront_of_some hf]
    have hkey := find?_key_eq hf
    have hmem : k ∈ llKeys ll :=
      (mem_llKeys ll k).mpr ⟨it, find?_key_mem hf, hkey⟩
    have : llKeys (it :: ll.eraseP (fun it2 => it2.key == k))
        = it.key :: (llKeys ll).erase k := by
      simp [llKeys, llKeys_eraseP]
      simpa [llKeys] using llKeys_eraseP ll k
    rw [this, hkey]
    exact (List.perm_cons_erase hmem).symm

theorem length_moveToFront (ll : List CacheItem) (k : String) :
    (moveToFront ll k).length = ll.length := by
  have h := (llKeys_moveToFront ll k).length_eq
  simpa [llKeys_length] using h

theorem find?_moveToFront_self {ll : List CacheItem} {k : String} {it : CacheItem}
    (h : ll.find? (fun it => it.key == k) = some it) :
    (moveToFront ll k).find? (fun i => i.key == k) = some it := by
  rw [moveToFront_of_some h]
  exact List.find?_cons_of_pos _ (by simp [beq_iff_eq, find?_key_eq h])

theorem eraseP_getLast_of_nodup {ll : List CacheItem} {b : CacheItem}
    (hnd : (llKeys ll).Nodup) (hb : ll.getLast? = some b) :
    ll.eraseP (fun it => it.key == b.key) = ll.dropLast := by
  induction ll with
  | nil => simp at hb
  | cons x rest ih =>
    cases rest with
    | nil =>
      simp only [List.getLast?_singleton, Option.some.injEq] at hb
      subst hb
      simp [List.eraseP_cons]
    | cons y rest2 =>
      have hb2 : (y :: rest2).getLast? = some b := by
        rw [← List.getLast?_cons_cons (a := x)]
        exact hb
      have hbmem : b ∈ y :: rest2 := List.mem_of_mem_getLast? (by simp [hb2])
      have hbk : b.key ∈ llKeys (y :: rest2) :=
        (mem_llKeys _ _).mpr ⟨b, hbmem, rfl⟩
      have hx : x.key ∉ llKeys (y :: rest2) := by
        have := hnd
        simp only [llKeys, List.map_cons, List.nodup_cons] at this
        simpa [llKeys] using this.1
      have hxb : ¬(x.key == b.key) = true := by
        simp only [beq_iff_eq]
        intro hcontra
        exact hx (hcontra ▸ hbk)
      have hnd2 : (llKeys (y :: rest2)).Nodup := by
        have := hnd
        simp only [llKeys, List.map_cons, List.nodup_cons] at this ⊢
        exact this.2
      rw [List.eraseP_cons_of_neg (p := fun it : CacheItem => it.key == b.key) (a := x) hxb,
        ih hnd2 hb2]
      rfl

/-! ### Branch characterizations of `Get` and `Set` -/

theorem Get_miss {key : String} {c : LRUCache} (now : Int)
    (hk : key ∉ c.items) : Get now key c = (("", false), c) := by
  simp [Get, hk]

theorem Get_hit {now : Int} {key : String} {c : LRUCache} {it : CacheItem}
    (hk : key ∈ c.items) (hf : c.ll.find? (fun i => i.key == key) = some it)
    (hexp : ¬ it.exp < now) :
    Get now key c
      = ((it.value, true),
         { c with ll := it :: c.ll.eraseP (fun i => i.key == key) }) := by
  simp only [Get, if_pos hk]
  rw [moveToFront_of_some hf] at *
  rw [List.find?_cons_of_pos _ (by simp [beq_iff_eq, find?_key_eq hf])]
  simp [hexp, moveToFront_of_some hf]

theorem Get_expired {now : Int} {key : String} {c : LRUCache} {it : CacheItem}
    (hk : key ∈ c.items) (hf : c.ll.find? (fun i => i.key == key) = some it)
    (hexp : it.exp < now) :
    Get now key c
      = (("", false),
         { c with items := c.items.erase key,
                  ll := c.ll.eraseP (fun i => i.key == key) }) := by
  simp only [Get, if_pos hk]
  rw [moveToFront_of_some hf]
  rw [List.find?_cons_of_pos _ (by simp [beq_iff_eq, find?_key_eq hf])]
  simp only [if_pos hexp, removeElement]
  rw [List.eraseP_cons_of_pos (by simp [beq_iff_eq, find?_key_eq hf])]

theorem Set_present {now : Int} {key value : String} {ttl : Int} {c : LRUCache}
    {it : CacheItem} (hk : key ∈ c.items)
    (hf : c.ll.find? (fun i => i.key == key) = some it) :
    Set now key value ttl c
      = { c with ll := { key := key, value := value, exp := now + ttl }
                    :: c.ll.eraseP (fun i => i.key == key) } := by
  simp only [Set, if_pos hk]
  rw [moveToFront_of_some hf]
  have hkey := find?_key_eq hf
  simp [updateItem, hkey]

theorem Set_absent {now : Int} {key value : String} {ttl : Int} {c : LRUCache}
    (hk : key ∉ c.items) :
    Set now key value ttl c
      = (let c1 : LRUCache :=
          { c with items := key :: c.items,
                   ll := { key := key, value := value, exp := now + ttl } :: c.ll }
         if c.capacity < (c1.ll.length : Int) then removeOldest c1 else c1) := by
  simp [Set, hk]

/-! ### Field preservation -/

theorem capacity_removeElement (c : LRUCache) (key : String) :
    (removeElement c key).capacity = c.capacity := rfl

theorem capacity_removeOldest (c : LRUCache) :
    (removeOldest c).capacity = c.capacity := by
  unfold removeOldest
  cases c.ll.getLast? <;> rfl

theorem capacity_Get (now : Int) (key : String) (c : LRUCache) :
    (Get now key c).2.capacity = c.capacity := by
  unfold Get
  by_cases hk : key ∈ c.items
  · simp only [if_pos hk]
    cases (moveToFront c.ll key).find? (fun it => it.key == key) with
    | none => rfl
    | some it => by_cases hexp : it.exp < now <;> simp [hexp, removeElement]
  · simp [hk]

theorem capacity_Set (now : Int) (key value : String) (ttl : Int) (c : LRUCache) :
    (Set now key value ttl c).capacity = c.capacity := by
  unfold Set
  by_cases hk : key ∈ c.items
  · simp [hk]
  · simp only [if_neg hk]
    split
    · rw [capacity_removeOldest]
    · rfl

theorem capacity_step (c : LRUCache) (op : Op) :
    (step c op).capacity = c.capacity := by
  cases op with
  | get now key => exact capacity_Get now key c
  | set now key value ttl => exact capacity_Set now key value ttl c

theorem capacity_run (c : LRUCache) (ops : List Op) :
    (run c ops).capacity = c.capacity := by
  induction ops generalizing c with
  | nil => rfl
  | cons op rest ih => rw [run, List.foldl_cons, ← run, ih, capacity_step]

/-! ### Preservation of the structural invariant -/

theorem Inv_new (capacity : Int) : Inv (NewLRUCache capacity) := by
  constructor <;> simp [NewLRUCache, keys, llKeys]

theorem Inv_removeElement {c : LRUCache} (key : String) (hInv : Inv c) :
    Inv (removeElement c key) := by
  obtain ⟨hperm, hnd⟩ := hInv
  constructor
  · simp only [removeElement, keys, llKeys_eraseP]
    exact hperm.erase key
  · simp only [removeElement, keys, llKeys_eraseP]
    exact hnd.erase key

theorem Inv_moveToFront {c : LRUCache} (key : String) (hInv : Inv c) :
    Inv { c with ll := moveToFront c.ll key } := by
  obtain ⟨hperm, hnd⟩ := hInv
  have hmv := llKeys_moveToFront c.ll key
  exact ⟨hperm.trans hmv.symm, (hmv.nodup_iff).mpr hnd⟩

theorem Inv_Get (now : Int) (key : String) {c : LRUCache} (hInv : Inv c) :
    Inv (Get now key c).2 := by
  unfold Get
  by_cases hk : key ∈ c.items
  · simp only [if_pos hk]
    cases hf : (moveToFront c.ll key).find? (fun it => it.key == key) with
    | none => exact Inv_moveToFront key hInv
    | some it =>
      by_cases hexp : it.exp < now
      · simp only [hexp, if_pos]
        exact Inv_removeElement key (Inv_moveToFront key hInv)
      · simp only [hexp, if_neg, not_false_iff]
        exact Inv_moveToFront key hInv
  · simpa [hk] using hInv

theorem Inv_removeOldest {c : LRUCache} (hInv : Inv c) : Inv (removeOldest c) := by
  unfold removeOldest
  cases c.ll.getLast? with
  | none => exact hInv
  | some it => exact Inv_removeElement it.key hInv

theorem Inv_Set (now : Int) (key value : String) (ttl : Int) {c : LRUCache}
    (hInv : Inv c) : Inv (Set now key value ttl c) := by
  unfold Set
  by_cases hk : key ∈ c.items
  · simp only [if_pos hk]
    obtain ⟨hperm, hnd⟩ := hInv
    have hmv := llKeys_moveToFront c.ll key
    have hupd := llKeys_updateItem (moveToFront c.ll key) key value (now + ttl)
    constructor
    · simp only [keys] at *
      rw [hupd]
      exact hperm.trans hmv.symm
    · simp only [keys] at *
      rw [hupd]
      exact (hmv.nodup_iff).mpr hnd
  · simp only [if_neg hk]
    obtain ⟨hperm, hnd⟩ := hInv
    have hkmem : key ∉ keys c := fun h => hk (hperm.mem_iff.mpr h)
    have hInv1 : Inv { c with
        items := key :: c.items,
        ll := { key := key, value := value, exp := now + ttl } :: c.ll } := by
      constructor
      · simpa [keys, llKeys] using hperm.cons key
      · refine List.nodup_cons.mpr ⟨?_, hnd⟩
        simpa [keys, llKeys] using hkmem
    split
    · exact Inv_removeOldest hInv1
    · exact hInv1

theorem Inv_step {c : LRUCache} (op : Op) (hInv : Inv c) : Inv (step c op) := by
  cases op with
  | get now key => exact Inv_Get now key hInv
  | set now key value ttl => exact Inv_Set now key value ttl hInv

theorem Inv_run {c : LRUCache} (ops : List Op) (hInv : Inv c) : Inv (run c ops) := by
  induction ops generalizing c with
  | nil => exact hInv
  | cons op rest ih => exact ih (Inv_step op hInv)

/-! ### The capacity bound -/

theorem length_Get_le (now : Int) (key : String) (c : LRUCache) :
    (Get now key c).2.ll.length ≤ c.ll.length := by
  unfold Get
  by_cases hk : key ∈ c.items
  · simp only [if_pos hk]
    cases hf : (moveToFront c.ll key).find? (fun it => it.key == key) with
    | none => simp [length_moveToFront]
    | some it =>
      by_cases hexp : it.exp < now
      · simp only [hexp, if_pos, removeElement]
        calc ((moveToFront c.ll key).eraseP (fun i => i.key == key)).length
            ≤ (moveToFront c.ll key).length := List.length_eraseP_le _
          _ = c.ll.length := length_moveToFront c.ll key
      · simp [hexp, length_moveToFront]
  · simp [hk]

theorem length_removeOldest {c : LRUCache} (h : c.ll ≠ []) :
    (removeOldest c).ll.length = c.ll.length - 1 := by
  unfold removeOldest
  cases hb : c.ll.getLast? with
  | none => simp [List.getLast?_eq_none_iff.mp hb] at h
  | some b =>
    have hbmem : b ∈ c.ll := List.mem_of_mem_getLast? (by simp [hb])
    have hbk : b.key ∈ llKeys c.ll := (mem_llKeys _ _).mpr ⟨b, hbmem, rfl⟩
    simpa [removeElement] using length_eraseP_key_of_mem hbk

theorem length_Set_le (now : Int) (key value : String) (ttl : Int) {c : LRUCache}
    (h : (c.ll.length : Int) ≤ c.capacity) :
    ((Set now key value ttl c).ll.length : Int) ≤ c.capacity := by
  unfold Set
  by_cases hk : key ∈ c.items
  · simpa [hk, length_updateItem, length_moveToFront] using h
  · simp only [if_neg hk]
    split
    next hcap =>
      rw [length_removeOldest (by simp)]
      simp only [List.length_cons]
      omega
    next hcap =>
      simp only [List.length_cons] at hcap ⊢
      omega

theorem length_step_le {c : LRUCache} (op : Op)
    (h : (c.ll.length : Int) ≤ c.capacity) :
    ((step c op).ll.length : Int) ≤ c.capacity := by
  cases op with
  | get now key =>
    calc ((step c (Op.get now key)).ll.length : Int)
        ≤ (c.ll.length : Int) := by exact_mod_cast length_Get_le now key c
      _ ≤ c.capacity := h
  | set now key value ttl => exact length_Set_le now key value ttl h

theorem length_run_le {c : LRUCache} (ops : List Op)
    (h : (c.ll.length : Int) ≤ c.capacity) :
    ((run c ops).ll.length : Int) ≤ c.capacity := by
  induction ops generalizing c with
  | nil => exact h
  | cons op rest ih =>
    have := ih (c := step c op) (by rw [capacity_step]; exact length_step_le op h)
    rw [capacity_step] at this
    exact this

theorem run_cons (c : LRUCache) (op : Op) (ops : List Op) :
    run c (op :: ops) = run (step c op) ops := rfl

theorem step_new_of_nonpos {capacity : Int} (hcap : capacity ≤ 0) (op : Op) :
    step (NewLRUCache capacity) op = NewLRUCache capacity := by
  cases op with
  | get now key =>
    show (Get now key (NewLRUCache capacity)).2 = NewLRUCache capacity
    rw [Get_miss now (by simp [NewLRUCache])]
  | set now key value ttl =>
    show Set now key value ttl (NewLRUCache capacity) = NewLRUCache capacity
    rw [Set_absent (by simp [NewLRUCache])]
    have hcond : capacity < ((1 : Nat) : Int) := by omega
    simp only [NewLRUCache, List.length_cons, List.length_nil]
    rw [if_pos (by simpa using hcond)]
    unfold removeOldest
    simp only [List.getLast?_singleton]
    unfold removeElement
    simp [List.eraseP_cons, List.erase_cons_head]

end LRUCache

namespace LRUCache

/-- Discovery of an expired entry by `Get`: the read misses and the entry is
removed from both the lookup map and the recency list. -/
theorem Get_expired_removes {now : Int} {key : String} {c : LRUCache}
    {it : CacheItem} (hInv : Inv c) (hk : key ∈ c.items)
    (hf : c.ll.find? (fun i => i.key == key) = some it) (hexp : it.exp < now) :
    (Get now key c).1 = ("", false)
    ∧ key ∉ (Get now key c).2.items
    ∧ key ∉ keys (Get now key c).2 := by
  rw [Get_expired hk hf hexp]
  refine ⟨rfl, ?_, ?_⟩
  · have hnd : c.items.Nodup := hInv.1.nodup_iff.mpr hInv.2
    exact hnd.not_mem_erase
  · show key ∉ llKeys (c.ll.eraseP (fun i => i.key == key))
    rw [llKeys_eraseP]
    exact hInv.2.not_mem_erase

/-- After `Set now key value ttl`, either the key is completely absent from
the store (it was inserted into a store that immediately evicted it), or it
is present in the map and the first list element carrying it holds the fresh
value and the expiry `now + ttl`. -/
theorem Set_self_state (now : Int) (key value : String) (ttl : Int)
    {c : LRUCache} (hInv : Inv c) :
    (key ∉ (Set now key value ttl c).items
      ∧ key ∉ keys (Set now key value ttl c))
    ∨ (key ∈ (Set now key value ttl c).items
      ∧ (Set now key value ttl c).ll.find? (fun i => i.key == key)
          = some { key := key, value := value, exp := now + ttl }) := by
  by_cases hk : key ∈ c.items
  · right
    have hll : key ∈ llKeys c.ll := hInv.1.mem_iff.mp hk
    obtain ⟨it, hf⟩ := find?_isSome_of_mem hll
    rw [Set_present hk hf]
    exact ⟨hk, List.find?_cons_of_pos _ (by simp)⟩
  · have hkeys : key ∉ llKeys c.ll := fun h => hk (hInv.1.mem_iff.mpr h)
    simp only [Set, if_neg hk]
    split
    next hcond =>
      cases hc : c.ll with
      | nil =>
        have hitems : c.items = [] := by
          have h := hInv.1
          rw [keys, hc] at h
          exact (h.symm.nil_eq).symm
        left
        unfold removeOldest
        simp only [List.getLast?_singleton]
        unfold removeElement
        constructor
        · simpa [List.erase_cons_head] using hk
        · show key ∉ llKeys (List.eraseP _ _)
          simp [llKeys, List.eraseP_cons]
      | cons y rest =>
        right
        rw [hc] at hkeys
        obtain ⟨b, hb⟩ : ∃ b, (y :: rest).getLast? = some b :=
          Option.isSome_iff_exists.mp (List.getLast?_isSome.mpr (by simp))
        have hbmem : b ∈ y :: rest := List.mem_of_mem_getLast? (by simp [hb])
        have hbk : b.key ∈ llKeys (y :: rest) := (mem_llKeys _ _).mpr ⟨b, hbmem, rfl⟩
        have hkb : key ≠ b.key := fun h => hkeys (h ▸ hbk)
        unfold removeOldest
        simp only [List.getLast?_cons_cons, hb]
        unfold removeElement
        constructor
        · rw [List.erase_cons_tail (by simp [hkb])]
          exact List.mem_cons_self _ _
        · rw [List.eraseP_cons_of_neg
            (p := fun i : CacheItem => i.key == b.key) (by simp [hkb])]
          exact List.find?_cons_of_pos _ (by simp)
    next hcond =>
      right
      exact ⟨List.mem_cons_self _ _, List.find?_cons_of_pos _ (by simp)⟩

/-- C1: for every store constructed with capacity > 0 and every sequence of
`Get` and `Set` operations, the number of entries held (both the recency
list's length and the lookup map's size) never exceeds the capacity after
each operation returns. -/
theorem claim_c1 (capacity : Int) (hpos : 0 < capacity) (ops : List Op) :
    ((run (NewLRUCache capacity) ops).ll.length : Int) ≤ capacity
    ∧ (run (NewLRUCache capacity) ops).items.length
        = (run (NewLRUCache capacity) ops).ll.length := by
  constructor
  · have h0 : (((NewLRUCache capacity).ll.length : Nat) : Int)
        ≤ (NewLRUCache capacity).capacity := by
      simp only [NewLRUCache, List.length_nil, Nat.cast_zero]
      omega
    exact length_run_le ops h0
  · have hInv := Inv_run ops (Inv_new capacity)
    have h := hInv.1.length_eq
    simpa [keys, llKeys_length] using h

/-- Witness for C1: capacity 3, four distinct keys inserted and one read. -/
theorem claim_c1_witness :
    (0 : Int) < 3
    ∧ (((run (NewLRUCache 3) [Op.set 0 "a" "1" 10, Op.set 1 "b" "2" 10,
          Op.set 2 "c" "3" 10, Op.get 3 "a", Op.set 4 "d" "4" 10]).ll.length : Int) ≤ 3
        ∧ (run (NewLRUCache 3) [Op.set 0 "a" "1" 10, Op.set 1 "b" "2" 10,
            Op.set 2 "c" "3" 10, Op.get 3 "a", Op.set 4 "d" "4" 10]).items.length
          = (run (NewLRUCache 3) [Op.set 0 "a" "1" 10, Op.set 1 "b" "2" 10,
              Op.set 2 "c" "3" 10, Op.get 3 "a", Op.set 4 "d" "4" 10]).ll.length) :=
  ⟨by decide,
   claim_c1 3 (by decide) [Op.set 0 "a" "1" 10, Op.set 1 "b" "2" 10,
     Op.set 2 "c" "3" 10, Op.get 3 "a", Op.set 4 "d" "4" 10]⟩

/-- C4: after every sequence of `Get`/`Set` operations from a fresh store,
the lookup map and the recency list hold exactly the same set of keys. -/
theorem claim_c4 (capacity : Int) (ops : List Op) (k : String) :
    k ∈ (run (NewLRUCache capacity) ops).items
      ↔ k ∈ keys (run (NewLRUCache capacity) ops) :=
  (Inv_run ops (Inv_new capacity)).1.mem_iff

/-- C7 counterexample: `NewLRUCache 0` is not rejected — it returns a store
with capacity 0 on which `Set` and `Get` operate normally (the `Set` is
accepted and its entry immediately evicted). -/
theorem claim_c7_counterexample :
    (NewLRUCache 0).capacity = 0
    ∧ Set 1 "k" "v" 5 (NewLRUCache 0) = NewLRUCache 0
    ∧ (Get 2 "k" (NewLRUCache 0)).1 = ("", false) := by
  decide

/-- C7 amended: `NewLRUCache` performs no validation and never fails — for
every capacity, including non-positive ones, it returns an empty,
structurally consistent store on which every operation is total. -/
theorem claim_c7_amended (capacity now : Int) (key : String) :
    (NewLRUCache capacity).capacity = capacity
    ∧ (NewLRUCache capacity).ll.length = 0
    ∧ (NewLRUCache capacity).items.length = 0
    ∧ Inv (NewLRUCache capacity)
    ∧ (Get now key (NewLRUCache capacity)).1 = ("", false) := by
  refine ⟨rfl, rfl, rfl, Inv_new capacity, ?_⟩
  rw [Get_miss now (by simp [NewLRUCache])]

/-- C9: a store constructed with capacity ≤ 0 is permanently empty at the
public interface — every operation sequence leaves it in the initial empty
state (each `Set` inserts and immediately evicts its own entry), and every
`Get` afterwards returns not-found. -/
theorem claim_c9 (capacity : Int) (hcap : capacity ≤ 0) (ops : List Op) :
    run (NewLRUCache capacity) ops = NewLRUCache capacity
    ∧ ∀ (now : Int) (key : String),
        (Get now key (run (NewLRUCache capacity) ops)).1 = ("", false) := by
  have hrun : run (NewLRUCache capacity) ops = NewLRUCache capacity := by
    induction ops with
    | nil => rfl
    | cons op rest ih => rw [run_cons, step_new_of_nonpos hcap op, ih]
  refine ⟨hrun, ?_⟩
  intro now key
  rw [hrun, Get_miss now (by simp [NewLRUCache])]

/-- C5: a `Get` that returns found, and every `Set` on a key already present
in the store, leave that key's entry at the most-recently-touched (front)
position of the recency list. -/
theorem claim_c5 (now : Int) (key value : String) (ttl : Int) (c : LRUCache)
    (hk : key ∈ c.items) (hll : key ∈ keys c) :
    ((Get now key c).1.2 = true →
        ((Get now key c).2.ll.head?.map (fun it => it.key) = some key))
    ∧ (Set now key value ttl c).ll.head?
        = some { key := key, value := value, exp := now + ttl } := by
  obtain ⟨it, hf⟩ := find?_isSome_of_mem (show key ∈ llKeys c.ll from hll)
  constructor
  · intro hfound
    by_cases hexp : it.exp < now
    · rw [Get_expired hk hf hexp] at hfound
      simp at hfound
    · rw [Get_hit hk hf hexp]
      simp [find?_key_eq hf]
  · rw [Set_present hk hf]
    rfl

/-- Witness for C5: a two-entry store where "a" is least recently touched;
reading it and overwriting it both put it back at the front. -/
theorem claim_c5_witness :
    ("a" ∈ (run (NewLRUCache 2) [Op.set 0 "a" "1" 10, Op.set 1 "b" "2" 10]).items
      ∧ "a" ∈ keys (run (NewLRUCache 2) [Op.set 0 "a" "1" 10, Op.set 1 "b" "2" 10]))
    ∧ (((Get 2 "a" (run (NewLRUCache 2) [Op.set 0 "a" "1" 10,
          Op.set 1 "b" "2" 10])).1.2 = true →
        ((Get 2 "a" (run (NewLRUCache 2) [Op.set 0 "a" "1" 10,
          Op.set 1 "b" "2" 10])).2.ll.head?.map (fun it => it.key) = some "a"))
      ∧ (Set 2 "a" "9" 10 (run (NewLRUCache 2) [Op.set 0 "a" "1" 10,
          Op.set 1 "b" "2" 10])).ll.head?
        = some { key := "a", value := "9", exp := 12 }) :=
  ⟨⟨by decide, by decide⟩,
   claim_c5 2 "a" "9" 10 (run (NewLRUCache 2) [Op.set 0 "a" "1" 10,
     Op.set 1 "b" "2" 10]) (by decide) (by decide)⟩

/-- C6: `Set` on a key already present in the map (expired or not)
overwrites value and expiry in place and moves the entry to the front: the
map is unchanged, the entry count is unchanged, no other entry is touched,
and no eviction occurs. -/
theorem claim_c6 (now : Int) (key value : String) (ttl : Int) (c : LRUCache)
    (hk : key ∈ c.items) (hll : key ∈ keys c) :
    (Set now key value ttl c).items = c.items
    ∧ (Set now key value ttl c).ll
        = { key := key, value := value, exp := now + ttl }
            :: c.ll.eraseP (fun i => i.key == key)
    ∧ (Set now key value ttl c).ll.length = c.ll.length
    ∧ (Set now key value ttl c).capacity = c.capacity := by
  obtain ⟨it, hf⟩ := find?_isSome_of_mem (show key ∈ llKeys c.ll from hll)
  rw [Set_present hk hf]
  refine ⟨rfl, rfl, ?_, rfl⟩
  have h1 := length_eraseP_key_of_mem (show key ∈ llKeys c.ll from hll)
  have h2 : 0 < c.ll.length :=
    List.length_pos.mpr (List.ne_nil_of_mem (find?_key_mem hf))
  simp only [List.length_cons, h1]
  omega

/-- Witness for C6: overwriting the stale key "a" in a full two-entry store
keeps both entries and evicts nothing. -/
theorem claim_c6_witness :
    ("a" ∈ (run (NewLRUCache 2) [Op.set 0 "a" "1" 10, Op.set 1 "b" "2" 10]).items
      ∧ "a" ∈ keys (run (NewLRUCache 2) [Op.set 0 "a" "1" 10, Op.set 1 "b" "2" 10]))
    ∧ ((Set 5 "a" "9" 0 (run (NewLRUCache 2) [Op.set 0 "a" "1" 10,
          Op.set 1 "b" "2" 10])).items
        = (run (NewLRUCache 2) [Op.set 0 "a" "1" 10, Op.set 1 "b" "2" 10]).items
      ∧ (Set 5 "a" "9" 0 (run (NewLRUCache 2) [Op.set 0 "a" "1" 10,
          Op.set 1 "b" "2" 10])).ll
        = { key := "a", value := "9", exp := 5 }
            :: (run (NewLRUCache 2) [Op.set 0 "a" "1" 10,
                Op.set 1 "b" "2" 10]).ll.eraseP (fun i => i.key == "a")
      ∧ (Set 5 "a" "9" 0 (run (NewLRUCache 2) [Op.set 0 "a" "1" 10,
          Op.set 1 "b" "2" 10])).ll.length
        = (run (NewLRUCache 2) [Op.set 0 "a" "1" 10, Op.set 1 "b" "2" 10]).ll.length
      ∧ (Set 5 "a" "9" 0 (run (NewLRUCache 2) [Op.set 0 "a" "1" 10,
          Op.set 1 "b" "2" 10])).capacity
        = (run (NewLRUCache 2) [Op.set 0 "a" "1" 10, Op.set 1 "b" "2" 10]).capacity) :=
  ⟨⟨by decide, by decide⟩,
   claim_c6 5 "a" "9" 0 (run (NewLRUCache 2) [Op.set 0 "a" "1" 10,
     Op.set 1 "b" "2" 10]) (by decide) (by decide)⟩

/-- C3: on a structurally consistent store at full positive capacity, `Set`
on an absent key inserts the new entry at the front of the recency list and
evicts exactly the back (least-recently-touched) entry — whatever its expiry
— leaving every other entry in place and the entry count unchanged. -/
theorem claim_c3 (now : Int) (key value : String) (ttl : Int) (c : LRUCache)
    (hInv : Inv c) (hfull : (c.ll.length : Int) = c.capacity)
    (hpos : 0 < c.capacity) (habs : key ∉ c.items) :
    (Set now key value ttl c).ll
      = { key := key, value := value, exp := now + ttl } :: c.ll.dropLast
    ∧ (Set now key value ttl c).ll.length = c.ll.length
    ∧ Inv (Set now key value ttl c) := by
  have hkeys : key ∉ keys c := fun h => habs (hInv.1.mem_iff.mpr h)
  have hne : c.ll ≠ [] := by
    intro h
    rw [h] at hfull
    simp only [List.length_nil, Nat.cast_zero] at hfull
    omega
  have hcond : c.capacity
      < ((({ key := key, value := value, exp := now + ttl } : CacheItem)
          :: c.ll).length : Int) := by
    simp only [List.length_cons]
    push_cast
    omega
  have hset : Set now key value ttl c
      = removeOldest { c with
          items := key :: c.items,
          ll := { key := key, value := value, exp := now + ttl } :: c.ll } := by
    simp only [Set, if_neg habs]
    rw [if_pos hcond]
  obtain ⟨b, hb⟩ : ∃ b, c.ll.getLast? = some b :=
    Option.isSome_iff_exists.mp (List.getLast?_isSome.mpr hne)
  have hbmem : b ∈ c.ll := List.mem_of_mem_getLast? (by simp [hb])
  have hbk : b.key ∈ llKeys c.ll := (mem_llKeys _ _).mpr ⟨b, hbmem, rfl⟩
  have hb1 : ((({ key := key, value := value, exp := now + ttl } : CacheItem)
      :: c.ll)).getLast? = some b := by
    obtain ⟨y, rest, hc⟩ : ∃ y rest, c.ll = y :: rest := by
      cases hc : c.ll with
      | nil => exact absurd hc hne
      | cons y rest => exact ⟨y, rest, rfl⟩
    rw [hc] at hb ⊢
    rw [List.getLast?_cons_cons]
    exact hb
  have hkb : ¬((({ key := key, value := value, exp := now + ttl } :
      CacheItem)).key == b.key) = true := by
    simp only [beq_iff_eq]
    intro h
    exact hkeys (show key ∈ keys c from h ▸ hbk)
  have hll : (Set now key value ttl c).ll
      = { key := key, value := value, exp := now + ttl } :: c.ll.dropLast := by
    rw [hset]
    unfold removeOldest
    rw [hb1]
    simp only [removeElement]
    rw [List.eraseP_cons_of_neg
      (p := fun it : CacheItem => it.key == b.key) hkb]
    rw [eraseP_getLast_of_nodup hInv.2 hb]
  refine ⟨hll, ?_, Inv_Set now key value ttl hInv⟩
  rw [hll]
  have h1 : 0 < c.ll.length := List.length_pos.mpr hne
  simp only [List.length_cons, List.length_dropLast]
  omega

/-- Witness for C3: a full capacity-2 store; inserting "c" evicts exactly
the back entry "a" and keeps "b". -/
theorem claim_c3_witness :
    (Inv (run (NewLRUCache 2) [Op.set 0 "a" "1" 10, Op.set 1 "b" "2" 10])
      ∧ (((run (NewLRUCache 2) [Op.set 0 "a" "1" 10,
            Op.set 1 "b" "2" 10]).ll.length : Int)
          = (run (NewLRUCache 2) [Op.set 0 "a" "1" 10, Op.set 1 "b" "2" 10]).capacity)
      ∧ (0 : Int) < (run (NewLRUCache 2) [Op.set 0 "a" "1" 10,
          Op.set 1 "b" "2" 10]).capacity
      ∧ "c" ∉ (run (NewLRUCache 2) [Op.set 0 "a" "1" 10, Op.set 1 "b" "2" 10]).items)
    ∧ ((Set 2 "c" "3" 10 (run (NewLRUCache 2) [Op.set 0 "a" "1" 10,
          Op.set 1 "b" "2" 10])).ll
        = { key := "c", value := "3", exp := 12 }
            :: (run (NewLRUCache 2) [Op.set 0 "a" "1" 10,
                Op.set 1 "b" "2" 10]).ll.dropLast
      ∧ (Set 2 "c" "3" 10 (run (NewLRUCache 2) [Op.set 0 "a" "1" 10,
          Op.set 1 "b" "2" 10])).ll.length
        = (run (NewLRUCache 2) [Op.set 0 "a" "1" 10, Op.set 1 "b" "2" 10]).ll.length
      ∧ Inv (Set 2 "c" "3" 10 (run (NewLRUCache 2) [Op.set 0 "a" "1" 10,
          Op.set 1 "b" "2" 10]))) :=
  ⟨⟨by decide, by decide, by decide, by decide⟩,
   claim_c3 2 "c" "3" 10 (run (NewLRUCache 2) [Op.set 0 "a" "1" 10,
     Op.set 1 "b" "2" 10]) (by decide) (by decide) (by decide) (by decide)⟩

/-- Witness for C9: capacity 0, two inserts and a read leave the store
empty and a further concrete read misses. -/
theorem claim_c9_witness :
    (0 : Int) ≤ 0
    ∧ (run (NewLRUCache 0) [Op.set 0 "a" "1" 10, Op.set 1 "b" "2" 10,
          Op.get 2 "a"] = NewLRUCache 0
        ∧ ∀ (now : Int) (key : String),
            (Get now key (run (NewLRUCache 0) [Op.set 0 "a" "1" 10,
              Op.set 1 "b" "2" 10, Op.get 2 "a"])).1 = ("", false)) :=
  ⟨by decide,
   claim_c9 0 (by decide) [Op.set 0 "a" "1" 10, Op.set 1 "b" "2" 10, Op.get 2 "a"]⟩

/-- C2 counterexample: an entry stored with `expiresAt = 10` is returned as
a hit by a `Get` at time exactly 10, i.e. at (not after) its expiry — the
code tests `time.Now().After(item.Exp)`, which is a strict comparison, so
"at or after `expiresAt`" does not yield not-found. -/
theorem claim_c2_counterexample :
    (Set 0 "x" "v" 10 (NewLRUCache 1)).ll
        = [{ key := "x", value := "v", exp := 10 }]
    ∧ (Get 10 "x" (Set 0 "x" "v" 10 (NewLRUCache 1))).1 = ("v", true) := by
  decide

/-- C2 amended: `Get` returns found only for an entry whose `expiresAt` is
at or after the time of the call (never for one strictly before it), and
when the entry for the key has `expiresAt` strictly before the call time,
`Get` removes it from both the lookup map and the recency list and returns
not-found. -/
theorem claim_c2_amended (now : Int) (key : String) (c : LRUCache)
    (hInv : Inv c) :
    ((Get now key c).1.2 = true →
        ∃ it, c.ll.find? (fun i => i.key == key) = some it ∧ now ≤ it.exp)
    ∧ (∀ it : CacheItem, key ∈ c.items →
        c.ll.find? (fun i => i.key == key) = some it → it.exp < now →
        (Get now key c).1 = ("", false)
        ∧ key ∉ (Get now key c).2.items
        ∧ key ∉ keys (Get now key c).2) := by
  constructor
  · intro hfound
    by_cases hk : key ∈ c.items
    · cases hf : c.ll.find? (fun i => i.key == key) with
      | none =>
        rw [show Get now key c = (("", false), { c with ll := moveToFront c.ll key })
          from by simp [Get, hk, moveToFront_of_none hf, hf]] at hfound
        simp at hfound
      | some it =>
        by_cases hexp : it.exp < now
        · rw [Get_expired hk hf hexp] at hfound
          simp at hfound
        · exact ⟨it, rfl, by omega⟩
    · rw [Get_miss now hk] at hfound
      simp at hfound
  · intro it hk hf hexp
    exact Get_expired_removes hInv hk hf hexp

/-- Witness for C2 amended: a consistent one-entry store whose entry expired
at 10, read at time 11. -/
theorem claim_c2_amended_witness :
    Inv (Set 0 "x" "v" 10 (NewLRUCache 1))
    ∧ (((Get 11 "x" (Set 0 "x" "v" 10 (NewLRUCache 1))).1.2 = true →
          ∃ it, (Set 0 "x" "v" 10 (NewLRUCache 1)).ll.find?
              (fun i => i.key == "x") = some it ∧ 11 ≤ it.exp)
        ∧ (∀ it : CacheItem, "x" ∈ (Set 0 "x" "v" 10 (NewLRUCache 1)).items →
            (Set 0 "x" "v" 10 (NewLRUCache 1)).ll.find?
                (fun i => i.key == "x") = some it → it.exp < 11 →
            (Get 11 "x" (Set 0 "x" "v" 10 (NewLRUCache 1))).1 = ("", false)
            ∧ "x" ∉ (Get 11 "x" (Set 0 "x" "v" 10 (NewLRUCache 1))).2.items
            ∧ "x" ∉ keys (Get 11 "x" (Set 0 "x" "v" 10 (NewLRUCache 1))).2)) :=
  ⟨by decide, claim_c2_amended 11 "x" (Set 0 "x" "v" 10 (NewLRUCache 1)) (by decide)⟩

/-- C8: a `Set` with zero or negative ttl is accepted (the operation is
total and inserts or overwrites as usual), and the entry is expired on the
next access: a `Get` of that key at any strictly later time returns
not-found and removes the entry from both map and list.  (At the identical
timestamp with ttl = 0 the strict expiry comparison still reports a hit,
cf. the C2 boundary.) -/
theorem claim_c8 (tSet tGet : Int) (key value : String) (ttl : Int)
    (c : LRUCache) (hInv : Inv c) (httl : ttl ≤ 0) (ht : tSet < tGet) :
    (Get tGet key (Set tSet key value ttl c)).1 = ("", false)
    ∧ key ∉ (Get tGet key (Set tSet key value ttl c)).2.items
    ∧ key ∉ keys (Get tGet key (Set tSet key value ttl c)).2 := by
  have hInv2 := Inv_Set tSet key value ttl hInv
  rcases Set_self_state tSet key value ttl hInv with ⟨h1, h2⟩ | ⟨h1, h2⟩
  · rw [Get_miss tGet h1]
    exact ⟨rfl, h1, h2⟩
  · refine Get_expired_removes hInv2 h1 h2 ?_
    show tSet + ttl < tGet
    omega

/-- Witness for C8: ttl 0 at time 5 into an empty consistent store, read
back at time 6. -/
theorem claim_c8_witness :
    (Inv (NewLRUCache 1) ∧ (0 : Int) ≤ 0 ∧ (5 : Int) < 6)
    ∧ ((Get 6 "x" (Set 5 "x" "v" 0 (NewLRUCache 1))).1 = ("", false)
      ∧ "x" ∉ (Get 6 "x" (Set 5 "x" "v" 0 (NewLRUCache 1))).2.items
      ∧ "x" ∉ keys (Get 6 "x" (Set 5 "x" "v" 0 (NewLRUCache 1))).2) :=
  ⟨⟨by decide, by decide, by decide⟩,
   claim_c8 5 6 "x" "v" 0 (NewLRUCache 1) (by decide) (by decide) (by decide)⟩

end LRUCache
